import Mathlib

/-!
# Raster classification and region labeling: a verification development

This file embeds the raster classification (binning) and connected-region
labeling core of the repository in Lean 4.  The repository's shipped files
are tutorial notebooks that call `quantile`, `equal_interval`,
`natural_breaks` and `regions` from the library; the implementations of
those functions are not part of the shipped sources, so the operations are
modelled from the specification document, faithfully to its words (grids
are 2-D arrays in row-major layout with an optional no-data sentinel per
cell; binning produces a class-index grid plus bin edges; region labeling
assigns one positive label per maximal connected component of equal-valued
cells under 4- or 8-connectivity, in row-major first-encountered order,
the smaller label surviving when provisional regions merge).  The one
piece of real shipped code treated here is the `heights` helper defined in
the Remote Sensing notebook, embedded directly from its source.

Floating-point cell values are modelled as rationals; `np.uint16` storage
is modelled as `Nat` reduced modulo `2 ^ 16`.
-/

namespace RasterCore

/-! ## Definitions: grid model -/

/-- Modelled from the spec: a Grid is a 2-D numeric array in row-major
layout carrying coordinate metadata and a no-data convention.  A cell is
`none` when it holds the no-data sentinel, `some v` when it holds the
finite value `v`.  The flat index `i` corresponds to row `i / cols`,
column `i % cols`. -/
structure Grid where
  rows : ℕ
  cols : ℕ
  xcoords : List ℚ
  ycoords : List ℚ
  data : List (Option ℚ)
deriving DecidableEq, Repr

/-- Number of cells of the grid. -/
def Grid.size (g : Grid) : ℕ := g.rows * g.cols

/-- Value stored at flat (row-major) cell index `i`; `none` for the
no-data sentinel or out-of-range indices. -/
def cellAt (g : Grid) (i : ℕ) : Option ℚ :=
  if i < g.size then
    match g.data.get? i with
    | some o => o
    | none => none
  else none

/-- Row coordinate of flat index `i`. -/
def rowOf (g : Grid) (i : ℕ) : ℕ := i / g.cols

/-- Column coordinate of flat index `i`. -/
def colOf (g : Grid) (i : ℕ) : ℕ := i % g.cols

/-! ## Definitions: connectivity and the region labeler -/

/-- Modelled from the spec: connectivity mode is the enum {4-neighbor,
8-neighbor}. -/
inductive Conn where
  | four : Conn
  | eight : Conn
deriving DecidableEq, Repr

/-- Axis-aligned (4-neighborhood) coordinate adjacency between the cells
at flat indices `i` and `j`. -/
def adjAxis (g : Grid) (i j : ℕ) : Prop :=
  (rowOf g i = rowOf g j ∧ (colOf g i + 1 = colOf g j ∨ colOf g j + 1 = colOf g i)) ∨
  (colOf g i = colOf g j ∧ (rowOf g i + 1 = rowOf g j ∨ rowOf g j + 1 = rowOf g i))

/-- Diagonal coordinate adjacency between the cells at flat indices `i`
and `j`. -/
def adjDiag (g : Grid) (i j : ℕ) : Prop :=
  (rowOf g i + 1 = rowOf g j ∨ rowOf g j + 1 = rowOf g i) ∧
  (colOf g i + 1 = colOf g j ∨ colOf g j + 1 = colOf g i)

/-- Neighbor adjacency rule: axis-aligned only (4), or axis-aligned plus
diagonal (8). -/
def adjacent (c : Conn) (g : Grid) (i j : ℕ) : Prop :=
  match c with
  | Conn.four => adjAxis g i j
  | Conn.eight => adjAxis g i j ∨ adjDiag g i j

instance (g : Grid) (i j : ℕ) : Decidable (adjAxis g i j) := by
  unfold adjAxis; infer_instance

instance (g : Grid) (i j : ℕ) : Decidable (adjDiag g i j) := by
  unfold adjDiag; infer_instance

instance (c : Conn) (g : Grid) (i j : ℕ) : Decidable (adjacent c g i j) := by
  cases c <;> · unfold adjacent; infer_instance

/-- One-step relation used by the labeler: two in-range, adjacent cells
holding the same finite (non-no-data) value. -/
def step (g : Grid) (c : Conn) (i j : ℕ) : Prop :=
  i < g.size ∧ j < g.size ∧ adjacent c g i j ∧
    cellAt g i = cellAt g j ∧ cellAt g i ≠ none

instance (g : Grid) (c : Conn) (i j : ℕ) : Decidable (step g c i j) := by
  unfold step; infer_instance

/-- Two cells belong to the same maximal connected component exactly when
they are related by the reflexive-transitive closure of `step`. -/
def connected (g : Grid) (c : Conn) (i j : ℕ) : Prop :=
  Relation.ReflTransGen (step g c) i j

/-- One round of the reachability closure: keep every in-range cell that
is already in the set or is one `step` from a member of the set. -/
def expandClosure (g : Grid) (c : Conn) (s : Finset ℕ) : Finset ℕ :=
  (Finset.range g.size).filter (fun j => j ∈ s ∨ ∃ x ∈ s, step g c x j)

/-- The set of cells connected to `i`: the closure iterated to a fixpoint
(grid-size many rounds suffice), with `i` itself kept. -/
def reachSet (g : Grid) (c : Conn) (i : ℕ) : Finset ℕ :=
  insert i ((expandClosure g c)^[g.size] {i})

/-- The reach set always holds the start cell. -/
def reachSet_nonempty (g : Grid) (c : Conn) (i : ℕ) : (reachSet g c i).Nonempty :=
  ⟨i, by unfold reachSet; exact Finset.mem_insert_self i _⟩

/-- First-encountered (row-major smallest) cell of the component of `i`:
the provisional label that survives every union-find merge. -/
def repOf (g : Grid) (c : Conn) (i : ℕ) : ℕ :=
  (reachSet g c i).min' (reachSet_nonempty g c i)

/-- Row-major list of component representatives: the in-range non-no-data
cells that are the first-encountered cell of their own component. -/
def repsList (g : Grid) (c : Conn) : List ℕ :=
  (List.range g.size).filter (fun i => decide (cellAt g i ≠ none ∧ repOf g c i = i))

/-- Label of the component of cell `i`: one plus the rank of its
representative in row-major first-encountered order. -/
def labelOf (g : Grid) (c : Conn) (i : ℕ) : ℕ :=
  List.indexOf (repOf g c i) (repsList g c) + 1

/-- Modelled from the spec: `label_regions(grid, connectivity)` — the
connected-component labeler (flood-fill equivalent of two-pass union-find
with smaller-label-survives merging).  Each maximal connected component of
equal-valued, non-no-data cells receives one unique positive label in
row-major first-encountered order; no-data cells are emitted as no-data. -/
def labelRegions (g : Grid) (c : Conn) : Grid :=
  { rows := g.rows, cols := g.cols, xcoords := g.xcoords, ycoords := g.ycoords,
    data := (List.range g.size).map (fun i =>
      match cellAt g i with
      | none => none
      | some _ => some ((labelOf g c i : ℚ))) }

/-- In-range cells holding a finite value. -/
def nonNodataCells (g : Grid) : Finset ℕ :=
  (Finset.range g.size).filter (fun i => cellAt g i ≠ none)

/-- Component representatives, as a finite set. -/
def repsFinset (g : Grid) (c : Conn) : Finset ℕ :=
  (Finset.range g.size).filter (fun i => cellAt g i ≠ none ∧ repOf g c i = i)

/-- Number of distinct region labels appearing on finite cells. -/
def distinctLabelCount (g : Grid) (c : Conn) : ℕ :=
  ((nonNodataCells g).image (labelOf g c)).card

/-- The distinct labels assigned to the cells that hold value `v`. -/
def labelsOfValue (g : Grid) (c : Conn) (v : ℚ) : List ℕ :=
  ((List.range g.size).filterMap (fun i =>
    if cellAt g i = some v then some (labelOf g c i) else none)).dedup

/-- Number of regions the labeler produces for the cells of value `v`. -/
def regionCountOfValue (g : Grid) (c : Conn) (v : ℚ) : ℕ :=
  (labelsOfValue g c v).length

/-! ## Definitions: binning strategies -/

/-- The finite (non-no-data) cell values of the grid, in row-major order. -/
def finiteVals (g : Grid) : List ℚ :=
  (g.data.take g.size).filterMap id

/-- Minimum of a list of rationals (0 on the empty list, which the binning
entry point rules out before use). -/
def listMin : List ℚ → ℚ
  | [] => 0
  | [x] => x
  | x :: y :: t => min x (listMin (y :: t))

/-- Maximum of a list of rationals (0 on the empty list, which the binning
entry point rules out before use). -/
def listMax : List ℚ → ℚ
  | [] => 0
  | [x] => x
  | x :: y :: t => max x (listMax (y :: t))

/-- Minimum finite value of the grid. -/
def minFin (g : Grid) : ℚ := listMin (finiteVals g)

/-- Maximum finite value of the grid. -/
def maxFin (g : Grid) : ℚ := listMax (finiteVals g)

/-- `linspace a b k`: the `k + 1` evenly spaced boundary values from `a`
to `b`. -/
def linspaceQ (a b : ℚ) (k : ℕ) : List ℚ :=
  (List.range (k + 1)).map (fun i : ℕ => a + (b - a) * (i : ℚ) / (k : ℚ))

/-- Collapse duplicate boundary values, keeping the first of each run of
equal edges: the effective (strictly increasing) bin boundaries. -/
def strictify : List ℚ → List ℚ
  | [] => []
  | [x] => [x]
  | x :: y :: t => if x < y then x :: strictify (y :: t) else strictify (x :: t)
termination_by l => l.length

/-- Cell-assignment rule shared by every binning method, applied to the
list of upper bin boundaries: the first bin whose upper edge is at least
the value; values beyond the last edge fall in the last bin, so the last
interval is closed at the maximum.  A value exactly on a boundary
therefore lands in the lower-indexed of its two adjacent bins. -/
def assignIdx (v : ℚ) : List ℚ → ℕ
  | [] => 0
  | [_] => 0
  | e :: e2 :: t => if v ≤ e then 0 else assignIdx v (e2 :: t) + 1

/-- Class index of value `v` for the given raw edge sequence: assignment
runs over the effective (deduplicated) upper boundaries. -/
def classOf (edges : List ℚ) (v : ℚ) : ℕ :=
  assignIdx v (strictify edges).tail

/-- Actual number of classes: the number of effective bins, at least one
(the degenerate all-equal-edges case yields a single class). -/
def kActualOf (edges : List ℚ) : ℕ :=
  max 1 ((strictify edges).length - 1)

/-- Modelled from the spec: the three binning methods. -/
inductive BinMethod where
  | quantile : BinMethod
  | equalInterval : BinMethod
  | naturalBreaks : BinMethod
deriving DecidableEq, Repr

/-- Modelled from the spec: errors are raised synchronously with the
offending parameter and value. -/
inductive BinError where
  | invalidArgument (param : String) (value : ℕ) : BinError
  | invalidState (param : String) (value : ℕ) : BinError
deriving DecidableEq, Repr

/-- Rank-based edges over a value list: sort, then read the boundary at
each of the `k + 1` evenly spaced ranks (nearest-rank quantiles). -/
def rankEdges (vals : List ℚ) (k : ℕ) : List ℚ :=
  let s := List.insertionSort (· ≤ ·) vals
  (List.range (k + 1)).map (fun i => s.getD (i * (s.length - 1) / k) 0)

/-- Number of distinct finite values of the grid. -/
def distinctCount (g : Grid) : ℕ := ((finiteVals g).dedup).length

/-- Modelled from the spec: the edge sequence of each method.  Quantile
uses the k-quantile boundaries of the finite values; equal-interval uses
`linspace(min, max, k + 1)`; natural breaks runs on the subsample of the
first `sampleSize` finite values (the spec's design notes leave the exact
Jenks refinement open, so the subsample's rank boundaries stand in for
it — no claim below depends on the refinement). -/
def edgesFor (g : Grid) (k : ℕ) (m : BinMethod) (sampleSize : ℕ) : List ℚ :=
  match m with
  | BinMethod.quantile => rankEdges (finiteVals g) k
  | BinMethod.equalInterval => linspaceQ (minFin g) (maxFin g) k
  | BinMethod.naturalBreaks => rankEdges ((finiteVals g).take sampleSize) k

/-- The class-index grid: every finite cell is assigned by the shared
rule; no-data cells pass through unchanged. -/
def classGrid (g : Grid) (edges : List ℚ) : Grid :=
  { rows := g.rows, cols := g.cols, xcoords := g.xcoords, ycoords := g.ycoords,
    data := g.data.map (fun o => o.map (fun v => (classOf edges v : ℚ))) }

/-- Modelled from the spec: `bin(grid, k, method, sample_size?)` returns
the class-index grid and the bin edges, or raises invalid-argument for
`k < 1` (and, for natural breaks, for `sample_size < k` or `k` exceeding
the number of distinct values) and invalid-state when the grid has no
finite values. -/
def bin (g : Grid) (k : ℕ) (m : BinMethod) (sampleSize : ℕ) :
    Except BinError (Grid × List ℚ) :=
  if k < 1 then Except.error (BinError.invalidArgument "k" k)
  else if (finiteVals g).length = 0 then
    Except.error (BinError.invalidState "finite_count" 0)
  else
    match m with
    | BinMethod.naturalBreaks =>
      if sampleSize < k then
        Except.error (BinError.invalidArgument "sample_size" sampleSize)
      else if distinctCount g < k then
        Except.error (BinError.invalidArgument "k" k)
      else Except.ok (classGrid g (edgesFor g k m sampleSize), edgesFor g k m sampleSize)
    | _ => Except.ok (classGrid g (edgesFor g k m sampleSize), edgesFor g k m sampleSize)

/-- Edges component of a binning result, when it succeeded. -/
def binEdgesOf (r : Except BinError (Grid × List ℚ)) : Option (List ℚ) :=
  r.toOption.map Prod.snd

/-- Grid component of a binning result, when it succeeded. -/
def binGridOf (r : Except BinError (Grid × List ℚ)) : Option Grid :=
  r.toOption.map Prod.fst

/-- Number of populated (actually occurring) classes of a class grid. -/
def populatedClasses (out : Grid) : ℕ := ((finiteVals out).dedup).length

/-! ## Definitions: the notebook's `heights` helper -/

/-- Embedded from `examples/user_guide/6_Remote_Sensing.ipynb`: the
`heights(locations, src, src_range, height)` helper.  It allocates a zero
`uint16` array with one slot per location, then for each row `r` reads
`x = locations[r][0]`, `y = locations[r][1]`, `val = src[y, x]`, and
stores `height` in slot `r` when `src_range[0] <= val < src_range[1]`.
`uint16` storage is modelled by reducing modulo `2 ^ 16`; `src` indexing
is modelled as a total function on integer coordinates. -/
def heightsStep (locations : List (ℤ × ℤ)) (src : ℤ → ℤ → ℚ)
    (srcRange : ℚ × ℚ) (height : ℕ) (out : List ℕ) (r : ℕ) : List ℕ :=
  match locations.get? r with
  | some loc =>
    if srcRange.1 ≤ src loc.2 loc.1 ∧ src loc.2 loc.1 < srcRange.2 then
      out.set r (height % 65536)
    else out
  | none => out

def heightsFun (locations : List (ℤ × ℤ)) (src : ℤ → ℤ → ℚ)
    (srcRange : ℚ × ℚ) (height : ℕ) : List ℕ :=
  (List.range locations.length).foldl (heightsStep locations src srcRange height)
    (List.replicate locations.length 0)

/-- The value the loop body of `heights` leaves in slot `r`. -/
def heightsCell (locations : List (ℤ × ℤ)) (src : ℤ → ℤ → ℚ)
    (srcRange : ℚ × ℚ) (height : ℕ) (r : ℕ) : ℕ :=
  match locations.get? r with
  | some loc =>
    if srcRange.1 ≤ src loc.2 loc.1 ∧ src loc.2 loc.1 < srcRange.2 then
      height % 65536
    else 0
  | none => 0

/-! ## Definitions: concrete inputs for scenarios and witnesses -/

/-- A 1×10 grid holding the values 0,1,...,9 (the equal-interval
scenario grid). -/
def gridTen : Grid :=
  { rows := 1, cols := 10, xcoords := [], ycoords := [],
    data := [some 0, some 1, some 2, some 3, some 4,
             some 5, some 6, some 7, some 8, some 9] }

/-- A 4×4 grid in which exactly two equal-valued cells (value 1 at
row-major indices 0 and 5) touch only diagonally; every other cell is
no-data. -/
def gridDiag : Grid :=
  { rows := 4, cols := 4, xcoords := [], ycoords := [],
    data := [some 1, none, none, none,
             none, some 1, none, none,
             none, none, none, none,
             none, none, none, none] }

/-- A 1×1 grid holding only the no-data sentinel. -/
def gridNoFinite : Grid :=
  { rows := 1, cols := 1, xcoords := [], ycoords := [], data := [none] }

/-- Concrete one-point locations array for the `heights` scenarios. -/
def locsOne : List (ℤ × ℤ) := [(0, 0)]

/-- Concrete source raster for the `heights` scenarios: value 50
everywhere. -/
def srcFifty : ℤ → ℤ → ℚ := fun _ _ => 50

/-- Equal-interval edges of `gridTen` with five classes. -/
def edgesTen : List ℚ := linspaceQ 0 9 5

/-- The class grid `bin` produces on `gridTen` with five classes. -/
def outTen : Grid := classGrid gridTen edgesTen

/-- Equal-interval edges of `gridTen` with three classes (the interior
boundaries 3 and 6 are themselves cell values). -/
def edgesTen3 : List ℚ := linspaceQ 0 9 3

/-- The class grid `bin` produces on `gridTen` with three classes. -/
def outTen3 : Grid := classGrid gridTen edgesTen3

/-! ## Theorems: adjacency and connectivity -/

theorem adjAxis_symm {g : Grid} {i j : ℕ} (h : adjAxis g i j) : adjAxis g j i := by
  unfold adjAxis at h ⊢; tauto

theorem adjDiag_symm {g : Grid} {i j : ℕ} (h : adjDiag g i j) : adjDiag g j i := by
  unfold adjDiag at h ⊢; tauto

theorem adjacent_symm {c : Conn} {g : Grid} {i j : ℕ}
    (h : adjacent c g i j) : adjacent c g j i := by
  cases c with
  | four => exact adjAxis_symm h
  | eight =>
    rcases h with h | h
    · exact Or.inl (adjAxis_symm h)
    · exact Or.inr (adjDiag_symm h)

theorem step_symm {g : Grid} {c : Conn} {i j : ℕ} (h : step g c i j) :
    step g c j i :=
  ⟨h.2.1, h.1, adjacent_symm h.2.2.1, h.2.2.2.1.symm, h.2.2.2.1 ▸ h.2.2.2.2⟩

/-- 4-connectivity steps are 8-connectivity steps. -/
theorem step_four_le_eight {g : Grid} {i j : ℕ} (h : step g Conn.four i j) :
    step g Conn.eight i j :=
  ⟨h.1, h.2.1, Or.inl h.2.2.1, h.2.2.2⟩

theorem connected_symm {g : Grid} {c : Conn} {i j : ℕ}
    (h : connected g c i j) : connected g c j i :=
  Relation.ReflTransGen.symmetric (fun _ _ => step_symm) h

theorem connected_trans {g : Grid} {c : Conn} {i j l : ℕ}
    (hij : connected g c i j) (hjl : connected g c j l) : connected g c i l :=
  Relation.ReflTransGen.trans hij hjl

theorem connected_four_le_eight {g : Grid} {i j : ℕ}
    (h : connected g Conn.four i j) : connected g Conn.eight i j :=
  Relation.ReflTransGen.mono (fun _ _ => step_four_le_eight) h

/-- Every cell connected to `i` by at least one step is in range and
holds a finite value; the reflexive case leaves `i` itself. -/
theorem connected_elim {g : Grid} {c : Conn} {i j : ℕ}
    (h : connected g c i j) : j = i ∨ (j < g.size ∧ cellAt g j ≠ none) := by
  rcases Relation.ReflTransGen.cases_tail h with h0 | ⟨m, _, hm⟩
  · exact Or.inl h0
  · exact Or.inr ⟨hm.2.1, hm.2.2.2.1 ▸ hm.2.2.2.2⟩

/-! ## Theorems: the reachability closure computes connectivity -/

theorem mem_reachSet_self (g : Grid) (c : Conn) (i : ℕ) : i ∈ reachSet g c i :=
  Finset.mem_insert_self i _

theorem expandClosure_subset_range (g : Grid) (c : Conn) (s : Finset ℕ) :
    expandClosure g c s ⊆ Finset.range g.size :=
  Finset.filter_subset _ _

theorem subset_expandClosure {g : Grid} {c : Conn} {s : Finset ℕ}
    (hs : s ⊆ Finset.range g.size) : s ⊆ expandClosure g c s := by
  intro j hj
  exact Finset.mem_filter.2 ⟨hs hj, Or.inl hj⟩

theorem iterate_expand_subset_range (g : Grid) (c : Conn) {s : Finset ℕ}
    (hs : s ⊆ Finset.range g.size) (n : ℕ) :
    (expandClosure g c)^[n] s ⊆ Finset.range g.size := by
  induction n with
  | zero => simpa using hs
  | succ n ih =>
    rw [Function.iterate_succ_apply']
    exact expandClosure_subset_range g c _

theorem iterate_expand_mono (g : Grid) (c : Conn) {s : Finset ℕ}
    (hs : s ⊆ Finset.range g.size) (n : ℕ) :
    (expandClosure g c)^[n] s ⊆ (expandClosure g c)^[n + 1] s := by
  rw [Function.iterate_succ_apply']
  exact subset_expandClosure (iterate_expand_subset_range g c hs n)

theorem iterate_expand_stable (g : Grid) (c : Conn) (s : Finset ℕ) {n : ℕ}
    (h : (expandClosure g c)^[n] s = (expandClosure g c)^[n + 1] s) :
    ∀ m, n ≤ m → (expandClosure g c)^[m] s = (expandClosure g c)^[n] s := by
  intro m hm
  induction m with
  | zero => cases Nat.le_zero.1 hm; rfl
  | succ m ih =>
    rcases Nat.lt_or_ge n (m + 1) with hlt | hge
    · have hnm : n ≤ m := Nat.lt_succ_iff.1 hlt
      have := ih hnm
      rw [Function.iterate_succ_apply', this,
        ← Function.iterate_succ_apply' (expandClosure g c) n s, ← h]
    · cases Nat.le_antisymm hm hge; rfl

theorem iterate_expand_growth (g : Grid) (c : Conn) {s : Finset ℕ}
    (hs : s ⊆ Finset.range g.size) (hne : s.Nonempty) (n : ℕ)
    (h : ∀ m < n, (expandClosure g c)^[m] s ≠ (expandClosure g c)^[m + 1] s) :
    n < ((expandClosure g c)^[n] s).card := by
  induction n with
  | zero => simpa using Finset.card_pos.2 hne
  | succ n ih =>
    have hlt : n < ((expandClosure g c)^[n] s).card :=
      ih (fun m hm => h m (Nat.lt_succ_of_lt hm))
    have hss : (expandClosure g c)^[n] s ⊂ (expandClosure g c)^[n + 1] s :=
      (Finset.ssubset_iff_subset_ne).2
        ⟨iterate_expand_mono g c hs n, h n (Nat.lt_succ_self n)⟩
    exact Nat.lt_of_lt_of_le (Nat.succ_lt_succ hlt) (Finset.card_lt_card hss)

theorem reach_fixpoint (g : Grid) (c : Conn) {s : Finset ℕ}
    (hs : s ⊆ Finset.range g.size) (hne : s.Nonempty) :
    (expandClosure g c)^[g.size] s = (expandClosure g c)^[g.size + 1] s := by
  by_cases hfix : ∃ m < g.size,
      (expandClosure g c)^[m] s = (expandClosure g c)^[m + 1] s
  · rcases hfix with ⟨m, hm, hfm⟩
    have h1 := iterate_expand_stable g c s hfm g.size (Nat.le_of_lt hm)
    have h2 := iterate_expand_stable g c s hfm (g.size + 1)
      (Nat.le_succ_of_le (Nat.le_of_lt hm))
    rw [h1, h2]
  · push_neg at hfix
    have := iterate_expand_growth g c hs hne g.size hfix
    have hle : ((expandClosure g c)^[g.size] s).card ≤ g.size := by
      have := iterate_expand_subset_range g c hs g.size
      simpa [Finset.card_range] using Finset.card_le_card this
    omega

theorem connected_of_mem_iterate {g : Grid} {c : Conn} {i : ℕ} :
    ∀ n, ∀ j, j ∈ (expandClosure g c)^[n] ({i} : Finset ℕ) → connected g c i j := by
  intro n
  induction n with
  | zero =>
    intro j h
    rcases Finset.mem_singleton.1 h with rfl
    exact Relation.ReflTransGen.refl
  | succ n ih =>
    intro j h
    rw [Function.iterate_succ_apply'] at h
    rcases Finset.mem_filter.1 h with ⟨_, hcase⟩
    rcases hcase with hmem | ⟨x, hx, hstep⟩
    · exact ih j hmem
    · exact Relation.ReflTransGen.tail (ih x hx) hstep

/-- Soundness of the closure: everything in `reachSet g c i` is connected
to `i`. -/
theorem connected_of_mem_reachSet {g : Grid} {c : Conn} {i j : ℕ}
    (h : j ∈ reachSet g c i) : connected g c i j := by
  rcases Finset.mem_insert.1 h with h0 | h0
  · exact h0 ▸ Relation.ReflTransGen.refl
  · exact connected_of_mem_iterate g.size j h0

theorem singleton_subset_range {g : Grid} {i : ℕ} (hi : i < g.size) :
    ({i} : Finset ℕ) ⊆ Finset.range g.size := by
  intro x hx
  rcases Finset.mem_singleton.1 hx with rfl
  exact Finset.mem_range.2 hi

theorem reachSet_eq_iterate {g : Grid} {c : Conn} {i : ℕ} (hi : i < g.size) :
    reachSet g c i = (expandClosure g c)^[g.size] {i} := by
  have hsub := singleton_subset_range (g := g) hi
  have hmem : ∀ n, i ∈ (expandClosure g c)^[n] ({i} : Finset ℕ) := by
    intro n
    induction n with
    | zero => exact Finset.mem_singleton_self i
    | succ n ih => exact iterate_expand_mono g c hsub n ih
  exact Finset.insert_eq_self.2 (hmem g.size)

/-- Completeness of the closure: every cell connected to an in-range `i`
lies in `reachSet g c i`. -/
theorem mem_reachSet_of_connected {g : Grid} {c : Conn} {i j : ℕ}
    (hi : i < g.size) (h : connected g c i j) : j ∈ reachSet g c i := by
  have hsub := singleton_subset_range (g := g) hi
  have hfix := reach_fixpoint g c hsub (Finset.singleton_nonempty i)
  induction h with
  | refl => exact mem_reachSet_self g c i
  | tail hab hbc ih =>
    rw [reachSet_eq_iterate hi] at ih ⊢
    rw [hfix, Function.iterate_succ_apply']
    refine Finset.mem_filter.2 ⟨Finset.mem_range.2 hbc.2.1, Or.inr ⟨_, ih, hbc⟩⟩

theorem mem_reachSet_iff {g : Grid} {c : Conn} {i j : ℕ} (hi : i < g.size) :
    j ∈ reachSet g c i ↔ connected g c i j :=
  ⟨connected_of_mem_reachSet, mem_reachSet_of_connected hi⟩

/-- Connected in-range cells have the same reach set. -/
theorem reachSet_congr {g : Grid} {c : Conn} {i j : ℕ}
    (hi : i < g.size) (hj : j < g.size) (h : connected g c i j) :
    reachSet g c i = reachSet g c j := by
  ext x
  rw [mem_reachSet_iff hi, mem_reachSet_iff hj]
  exact ⟨fun hx => connected_trans (connected_symm h) hx,
    fun hx => connected_trans h hx⟩

/-! ## Theorems: component representatives and labels -/

theorem repOf_mem_reachSet (g : Grid) (c : Conn) (i : ℕ) :
    repOf g c i ∈ reachSet g c i :=
  Finset.min'_mem _ _

theorem connected_repOf (g : Grid) (c : Conn) (i : ℕ) :
    connected g c i (repOf g c i) :=
  connected_of_mem_reachSet (repOf_mem_reachSet g c i)

theorem repOf_le_of_connected {g : Grid} {c : Conn} {i j : ℕ}
    (hi : i < g.size) (h : connected g c i j) : repOf g c i ≤ j :=
  Finset.min'_le _ _ (mem_reachSet_of_connected hi h)

theorem repOf_lt_size {g : Grid} {c : Conn} {i : ℕ} (hi : i < g.size) :
    repOf g c i < g.size := by
  rcases connected_elim (connected_repOf g c i) with h | h
  · rw [h]; exact hi
  · exact h.1

theorem cellAt_repOf_ne_none {g : Grid} {c : Conn} {i : ℕ}
    (hv : cellAt g i ≠ none) : cellAt g (repOf g c i) ≠ none := by
  rcases connected_elim (connected_repOf g c i) with h | h
  · rw [h]; exact hv
  · exact h.2

theorem min'_congr {s t : Finset ℕ} (hs : s.Nonempty) (ht : t.Nonempty)
    (h : s = t) : s.min' hs = t.min' ht := by subst h; rfl

theorem repOf_congr {g : Grid} {c : Conn} {i j : ℕ} (hi : i < g.size)
    (hj : j < g.size) (h : connected g c i j) : repOf g c i = repOf g c j :=
  min'_congr _ _ (reachSet_congr hi hj h)

theorem repOf_idem {g : Grid} {c : Conn} {i : ℕ} (hi : i < g.size) :
    repOf g c (repOf g c i) = repOf g c i :=
  (repOf_congr hi (repOf_lt_size hi) (connected_repOf g c i)).symm

theorem mem_repsList {g : Grid} {c : Conn} {i : ℕ} :
    i ∈ repsList g c ↔ i < g.size ∧ cellAt g i ≠ none ∧ repOf g c i = i := by
  unfold repsList
  simp [List.mem_filter, List.mem_range, and_assoc]

theorem repOf_mem_repsList {g : Grid} {c : Conn} {i : ℕ}
    (hi : i < g.size) (hv : cellAt g i ≠ none) :
    repOf g c i ∈ repsList g c :=
  mem_repsList.2 ⟨repOf_lt_size hi, cellAt_repOf_ne_none hv, repOf_idem hi⟩

theorem repsList_pairwise (g : Grid) (c : Conn) :
    (repsList g c).Pairwise (· < ·) :=
  (List.pairwise_lt_range g.size).filter _

theorem indexOf_lt_indexOf_iff {l : List ℕ} (hl : l.Pairwise (· < ·))
    {a b : ℕ} (ha : a ∈ l) (hb : b ∈ l) :
    List.indexOf a l < List.indexOf b l ↔ a < b := by
  have hia := List.indexOf_lt_length.2 ha
  have hib := List.indexOf_lt_length.2 hb
  have hga := List.indexOf_get hia
  have hgb := List.indexOf_get hib
  constructor
  · intro h
    have := List.pairwise_iff_get.1 hl ⟨_, hia⟩ ⟨_, hib⟩ (Fin.mk_lt_mk.2 h)
    rw [hga, hgb] at this; exact this
  · intro h
    rcases Nat.lt_trichotomy (List.indexOf a l) (List.indexOf b l) with h1 | h1 | h1
    · exact h1
    · exfalso
      have hfin : (⟨List.indexOf a l, hia⟩ : Fin l.length) = ⟨List.indexOf b l, hib⟩ :=
        Fin.ext h1
      rw [← hga, ← hgb, hfin] at h
      omega
    · exfalso
      have := List.pairwise_iff_get.1 hl ⟨_, hib⟩ ⟨_, hia⟩ (Fin.mk_lt_mk.2 h1)
      rw [hga, hgb] at this; omega

theorem labelOf_pos (g : Grid) (c : Conn) (i : ℕ) : 1 ≤ labelOf g c i :=
  Nat.succ_le_succ (Nat.zero_le _)

theorem labelOf_eq_iff {g : Grid} {c : Conn} {i j : ℕ}
    (hi : i < g.size) (hj : j < g.size)
    (hvi : cellAt g i ≠ none) (hvj : cellAt g j ≠ none) :
    labelOf g c i = labelOf g c j ↔ connected g c i j := by
  unfold labelOf
  constructor
  · intro h
    have h' : List.indexOf (repOf g c i) (repsList g c) =
        List.indexOf (repOf g c j) (repsList g c) := by omega
    have heq : repOf g c i = repOf g c j :=
      (List.indexOf_inj (repOf_mem_repsList hi hvi) (repOf_mem_repsList hj hvj)).1 h'
    have h2 : connected g c (repOf g c i) j := by
      rw [heq]; exact connected_symm (connected_repOf g c j)
    exact connected_trans (connected_repOf g c i) h2
  · intro h
    rw [repOf_congr hi hj h]

theorem labelOf_lt_iff {g : Grid} {c : Conn} {i j : ℕ}
    (hi : i < g.size) (hj : j < g.size)
    (hvi : cellAt g i ≠ none) (hvj : cellAt g j ≠ none) :
    labelOf g c i < labelOf g c j ↔ repOf g c i < repOf g c j := by
  unfold labelOf
  rw [Nat.add_lt_add_iff_right]
  exact indexOf_lt_indexOf_iff (repsList_pairwise g c)
    (repOf_mem_repsList hi hvi) (repOf_mem_repsList hj hvj)

theorem cellAt_labelRegions (g : Grid) (c : Conn) {i : ℕ} (hi : i < g.size) :
    cellAt (labelRegions g c) i =
      match cellAt g i with
      | none => none
      | some _ => some ((labelOf g c i : ℚ)) := by
  have hsize : (labelRegions g c).size = g.size := rfl
  have h1 : (labelRegions g c).data.get? i =
      some (match cellAt g i with
        | none => none
        | some _ => some ((labelOf g c i : ℚ))) := by
    show ((List.range g.size).map _).get? i = _
    rw [List.get?_map, List.get?_range hi]
    rfl
  unfold cellAt
  rw [hsize, if_pos hi, h1]
  rfl

theorem cellAt_labelRegions_none {g : Grid} {c : Conn} {i : ℕ}
    (hi : i < g.size) (h : cellAt g i = none) :
    cellAt (labelRegions g c) i = none := by
  rw [cellAt_labelRegions g c hi, h]

theorem cellAt_labelRegions_some {g : Grid} {c : Conn} {i : ℕ} {v : ℚ}
    (hi : i < g.size) (h : cellAt g i = some v) :
    cellAt (labelRegions g c) i = some ((labelOf g c i : ℚ)) := by
  rw [cellAt_labelRegions g c hi, h]

/-! ## Theorems: coarsening from 4- to 8-connectivity -/

theorem reachSet_four_subset_eight {g : Grid} {i : ℕ} (hi : i < g.size) :
    reachSet g Conn.four i ⊆ reachSet g Conn.eight i := by
  intro x hx
  exact mem_reachSet_of_connected hi
    (connected_four_le_eight (connected_of_mem_reachSet hx))

theorem repOf_four_eq_of_repOf_eight {g : Grid} {i : ℕ} (hi : i < g.size)
    (h : repOf g Conn.eight i = i) : repOf g Conn.four i = i := by
  apply le_antisymm
  · exact Finset.min'_le _ _ (mem_reachSet_self g Conn.four i)
  · apply Finset.le_min'
    intro y hy
    have hy8 : y ∈ reachSet g Conn.eight i := reachSet_four_subset_eight hi hy
    have hle : repOf g Conn.eight i ≤ y := Finset.min'_le _ _ hy8
    rw [h] at hle
    exact hle

theorem mem_repsFinset {g : Grid} {c : Conn} {i : ℕ} :
    i ∈ repsFinset g c ↔ i < g.size ∧ cellAt g i ≠ none ∧ repOf g c i = i := by
  unfold repsFinset
  simp [Finset.mem_filter, Finset.mem_range, and_assoc]

theorem mem_nonNodataCells {g : Grid} {i : ℕ} :
    i ∈ nonNodataCells g ↔ i < g.size ∧ cellAt g i ≠ none := by
  unfold nonNodataCells
  simp

theorem image_repOf_eq_repsFinset (g : Grid) (c : Conn) :
    (nonNodataCells g).image (repOf g c) = repsFinset g c := by
  ext r
  simp only [Finset.mem_image]
  constructor
  · rintro ⟨i, hi, rfl⟩
    rcases mem_nonNodataCells.1 hi with ⟨h1, h2⟩
    exact mem_repsFinset.2 ⟨repOf_lt_size h1, cellAt_repOf_ne_none h2, repOf_idem h1⟩
  · intro hr
    rcases mem_repsFinset.1 hr with ⟨h1, h2, h3⟩
    exact ⟨r, mem_nonNodataCells.2 ⟨h1, h2⟩, h3⟩

theorem distinctLabelCount_eq_card_reps (g : Grid) (c : Conn) :
    distinctLabelCount g c = (repsFinset g c).card := by
  unfold distinctLabelCount
  have h1 : (nonNodataCells g).image (labelOf g c) =
      ((nonNodataCells g).image (repOf g c)).image
        (fun r => List.indexOf r (repsList g c) + 1) := by
    rw [Finset.image_image]; rfl
  rw [h1, image_repOf_eq_repsFinset]
  apply Finset.card_image_of_injOn
  intro a ha b hb hab
  have ha' : a ∈ repsList g c := by
    rcases mem_repsFinset.1 ha with ⟨x1, x2, x3⟩
    exact mem_repsList.2 ⟨x1, x2, x3⟩
  have hb' : b ∈ repsList g c := by
    rcases mem_repsFinset.1 hb with ⟨x1, x2, x3⟩
    exact mem_repsList.2 ⟨x1, x2, x3⟩
  simp only at hab
  exact (List.indexOf_inj ha' hb').1 (by omega)

theorem repsFinset_eight_subset_four (g : Grid) :
    repsFinset g Conn.eight ⊆ repsFinset g Conn.four := by
  intro r hr
  rcases mem_repsFinset.1 hr with ⟨h1, h2, h3⟩
  exact mem_repsFinset.2 ⟨h1, h2, repOf_four_eq_of_repOf_eight h1 h3⟩

/-! ## Theorems: list minima and maxima -/

theorem listMin_le : ∀ (l : List ℚ), ∀ z ∈ l, listMin l ≤ z := by
  intro l
  induction l using listMin.induct with
  | case1 => intro z hz; cases hz
  | case2 x =>
    intro z hz
    rcases List.mem_singleton.1 hz with rfl
    exact le_refl _
  | case3 x y t ih =>
    intro z hz
    rcases List.mem_cons.1 hz with rfl | hz2
    · exact min_le_left _ _
    · exact le_trans (min_le_right _ _) (ih z hz2)

theorem listMin_mem : ∀ (l : List ℚ), l ≠ [] → listMin l ∈ l := by
  intro l
  induction l using listMin.induct with
  | case1 => intro h; exact absurd rfl h
  | case2 x => intro _; exact List.mem_singleton_self x
  | case3 x y t ih =>
    intro _
    show min x (listMin (y :: t)) ∈ x :: y :: t
    rcases min_cases x (listMin (y :: t)) with ⟨heq, _⟩ | ⟨heq, _⟩
    · rw [heq]; exact List.mem_cons_self _ _
    · rw [heq]; exact List.mem_cons_of_mem _ (ih (by simp))

theorem listMax_ge : ∀ (l : List ℚ), ∀ z ∈ l, z ≤ listMax l := by
  intro l
  induction l using listMax.induct with
  | case1 => intro z hz; cases hz
  | case2 x =>
    intro z hz
    rcases List.mem_singleton.1 hz with rfl
    exact le_refl _
  | case3 x y t ih =>
    intro z hz
    rcases List.mem_cons.1 hz with rfl | hz2
    · exact le_max_left _ _
    · exact le_trans (ih z hz2) (le_max_right _ _)

theorem listMax_mem : ∀ (l : List ℚ), l ≠ [] → listMax l ∈ l := by
  intro l
  induction l using listMax.induct with
  | case1 => intro h; exact absurd rfl h
  | case2 x => intro _; exact List.mem_singleton_self x
  | case3 x y t ih =>
    intro _
    show max x (listMax (y :: t)) ∈ x :: y :: t
    rcases max_cases x (listMax (y :: t)) with ⟨heq, _⟩ | ⟨heq, _⟩
    · rw [heq]; exact List.mem_cons_self _ _
    · rw [heq]; exact List.mem_cons_of_mem _ (ih (by simp))

theorem mem_finiteVals_of_cellAt {g : Grid} {i : ℕ} {v : ℚ}
    (h : cellAt g i = some v) : v ∈ finiteVals g := by
  unfold cellAt at h
  by_cases hi : i < g.size
  · rw [if_pos hi] at h
    rcases hget : g.data.get? i with _ | o
    · rw [hget] at h; cases h
    · rw [hget] at h
      subst h
      apply List.mem_filterMap.2
      refine ⟨some v, ?_, rfl⟩
      have hmem : (g.data.take g.size).get? i = some (some v) := by
        rw [List.get?_take hi, hget]
      exact List.get?_mem hmem
  · rw [if_neg hi] at h; cases h

theorem minFin_le_cellVal {g : Grid} {i : ℕ} {v : ℚ}
    (h : cellAt g i = some v) : minFin g ≤ v :=
  listMin_le _ v (mem_finiteVals_of_cellAt h)

theorem cellVal_le_maxFin {g : Grid} {i : ℕ} {v : ℚ}
    (h : cellAt g i = some v) : v ≤ maxFin g :=
  listMax_ge _ v (mem_finiteVals_of_cellAt h)

theorem minFin_le_maxFin {g : Grid} (h : finiteVals g ≠ []) :
    minFin g ≤ maxFin g :=
  listMin_le _ _ (listMax_mem _ h)

/-! ## Theorems: linspace edges -/

theorem linspaceQ_length (a b : ℚ) (k : ℕ) : (linspaceQ a b k).length = k + 1 := by
  simp [linspaceQ]

theorem linspaceQ_sorted {a b : ℚ} (hab : a ≤ b) (k : ℕ) :
    List.Sorted (· ≤ ·) (linspaceQ a b k) := by
  unfold linspaceQ List.Sorted
  rw [List.pairwise_map]
  apply (List.pairwise_lt_range (k + 1)).imp
  intro i j hij
  by_cases hk : (k : ℚ) = 0
  · simp [hk]
  · have hkpos : (0 : ℚ) < k := lt_of_le_of_ne (Nat.cast_nonneg k) (Ne.symm hk)
    have h2 : (i : ℚ) ≤ (j : ℚ) := by exact_mod_cast hij.le
    have h3 : (b - a) * i ≤ (b - a) * j :=
      mul_le_mul_of_nonneg_left h2 (by linarith)
    have h4 : (b - a) * i / k ≤ (b - a) * j / k :=
      (div_le_div_right hkpos).2 h3
    linarith

theorem linspaceQ_sorted_lt {a b : ℚ} (hab : a < b) {k : ℕ} (hk : 1 ≤ k) :
    List.Sorted (· < ·) (linspaceQ a b k) := by
  unfold linspaceQ List.Sorted
  rw [List.pairwise_map]
  apply (List.pairwise_lt_range (k + 1)).imp
  intro i j hij
  have hkpos : (0 : ℚ) < k := by exact_mod_cast hk
  have h2 : (i : ℚ) < (j : ℚ) := by exact_mod_cast hij
  have h3 : (b - a) * i < (b - a) * j :=
    mul_lt_mul_of_pos_left h2 (by linarith)
  have h4 : (b - a) * i / k < (b - a) * j / k :=
    (div_lt_div_right hkpos).2 h3
  linarith

theorem linspaceQ_head (a b : ℚ) (k : ℕ) : (linspaceQ a b k).head? = some a := by
  unfold linspaceQ
  rw [List.range_succ_eq_map]
  simp

theorem linspaceQ_getLast {a b : ℚ} {k : ℕ} (hk : 1 ≤ k) :
    (linspaceQ a b k).getLast? = some b := by
  unfold linspaceQ
  rw [List.range_succ, List.map_append]
  simp only [List.map_cons, List.map_nil]
  rw [List.getLast?_concat]
  have hk' : (k : ℚ) ≠ 0 := by
    have : (0 : ℚ) < k := by exact_mod_cast hk
    exact ne_of_gt this
  congr 1
  rw [mul_div_assoc, div_self hk', mul_one]
  ring

theorem linspaceQ_le {a b : ℚ} (hab : a ≤ b) {k : ℕ} {x : ℚ}
    (hx : x ∈ linspaceQ a b k) : x ≤ b := by
  unfold linspaceQ at hx
  rcases List.mem_map.1 hx with ⟨i, hi, rfl⟩
  have hik : i ≤ k := Nat.lt_succ_iff.1 (List.mem_range.1 hi)
  by_cases hk : (k : ℚ) = 0
  · simp [hk]; linarith
  · have hkpos : (0 : ℚ) < k := lt_of_le_of_ne (Nat.cast_nonneg k) (Ne.symm hk)
    have h1 : (b - a) * i ≤ (b - a) * k :=
      mul_le_mul_of_nonneg_left (by exact_mod_cast hik) (by linarith)
    have h2 : (b - a) * i / k ≤ (b - a) * k / k := (div_le_div_right hkpos).2 h1
    have h3 : (b - a) * k / k = b - a := by
      rw [mul_div_assoc, div_self (ne_of_gt hkpos), mul_one]
    linarith

/-! ## Theorems: effective edges and the assignment rule -/

theorem strictify_head : ∀ (l : List ℚ), l ≠ [] → (strictify l).head? = l.head? := by
  intro l
  induction l using strictify.induct with
  | case1 => intro h; exact absurd rfl h
  | case2 x => intro _; simp [strictify]
  | case3 x y t hxy ih =>
    intro _
    simp only [strictify, if_pos hxy]
    rfl
  | case4 x y t hxy ih =>
    intro _
    simp only [strictify, if_neg hxy]
    rw [ih (by simp)]
    rfl

theorem strictify_chain : ∀ (l : List ℚ), (strictify l).Chain' (· < ·) := by
  intro l
  induction l using strictify.induct with
  | case1 => simp [strictify]
  | case2 x => simp [strictify]
  | case3 x y t hxy ih =>
    simp only [strictify, if_pos hxy]
    rw [List.chain'_cons']
    constructor
    · intro z hz
      rw [strictify_head (y :: t) (by simp)] at hz
      have hzy : y = z := by simpa using hz
      rw [← hzy]
      exact hxy
    · exact ih
  | case4 x y t hxy ih =>
    simp only [strictify, if_neg hxy]
    exact ih

theorem strictify_sorted (l : List ℚ) : List.Sorted (· < ·) (strictify l) :=
  List.chain'_iff_pairwise.1 (strictify_chain l)

theorem strictify_subset : ∀ (l : List ℚ), ∀ z ∈ strictify l, z ∈ l := by
  intro l
  induction l using strictify.induct with
  | case1 => intro z hz; simp [strictify] at hz
  | case2 x => intro z hz; simpa [strictify] using hz
  | case3 x y t hxy ih =>
    intro z hz
    simp only [strictify, if_pos hxy] at hz
    rcases List.mem_cons.1 hz with rfl | hz2
    · exact List.mem_cons_self _ _
    · exact List.mem_cons_of_mem _ (ih z hz2)
  | case4 x y t hxy ih =>
    intro z hz
    simp only [strictify, if_neg hxy] at hz
    rcases List.mem_cons.1 (ih z hz) with rfl | hz2
    · exact List.mem_cons_self _ _
    · exact List.mem_cons_of_mem _ (List.mem_cons_of_mem _ hz2)

theorem assignIdx_lt_length {v : ℚ} :
    ∀ (l : List ℚ), l ≠ [] → assignIdx v l < l.length
  | [] => fun h => absurd rfl h
  | [x] => fun _ => by simp [assignIdx]
  | x :: y :: t => fun _ => by
    show (if v ≤ x then 0 else assignIdx v (y :: t) + 1) < (x :: y :: t).length
    split
    · simp
    · have h := assignIdx_lt_length (v := v) (y :: t) (by simp)
      simp only [List.length_cons] at h ⊢
      omega

theorem assignIdx_all_le {v : ℚ} :
    ∀ (l : List ℚ), List.Sorted (· < ·) l → (∀ e ∈ l, e ≤ v) →
      assignIdx v l = l.length - 1
  | [] => fun _ _ => rfl
  | [x] => fun _ _ => rfl
  | x :: y :: t => fun hs hle => by
    have hxy : x < y := List.rel_of_sorted_cons hs y (List.mem_cons_self _ _)
    have hyv : y ≤ v := hle y (List.mem_cons_of_mem _ (List.mem_cons_self _ _))
    have hnx : ¬ v ≤ x := by intro hvx; linarith
    show (if v ≤ x then 0 else assignIdx v (y :: t) + 1) = (x :: y :: t).length - 1
    rw [if_neg hnx]
    rw [assignIdx_all_le (y :: t) hs.of_cons
      (fun e he => hle e (List.mem_cons_of_mem _ he))]
    simp only [List.length_cons]
    omega

theorem assignIdx_exact {v : ℚ} :
    ∀ (l : List ℚ), List.Sorted (· < ·) l → ∀ (j : ℕ) (hj : j < l.length),
      l.get ⟨j, hj⟩ = v → assignIdx v l = j
  | [] => by intro _ j hj; simp at hj
  | [x] => by
    intro _ j hj hv
    have hj0 : j = 0 := by simpa using Nat.lt_one_iff.1 (by simpa using hj)
    subst hj0
    rfl
  | x :: y :: t => by
    intro hs j hj hv
    cases j with
    | zero =>
      have hx : x = v := hv
      show (if v ≤ x then 0 else assignIdx v (y :: t) + 1) = 0
      rw [if_pos (le_of_eq hx.symm)]
    | succ j1 =>
      have hj' : j1 < (y :: t).length := by
        simpa [Nat.succ_lt_succ_iff] using hj
      have hv' : (y :: t).get ⟨j1, hj'⟩ = v := hv
      have hmem : v ∈ y :: t := by
        rw [← hv']; exact List.get_mem _ _ _
      have hx : x < v := List.rel_of_sorted_cons hs v hmem
      show (if v ≤ x then 0 else assignIdx v (y :: t) + 1) = j1 + 1
      rw [if_neg (by linarith)]
      rw [assignIdx_exact (y :: t) hs.of_cons j1 hj' hv']

theorem one_le_kActual (edges : List ℚ) : 1 ≤ kActualOf edges :=
  le_max_left 1 _

theorem classOf_lt_kActual (edges : List ℚ) (v : ℚ) :
    classOf edges v < kActualOf edges := by
  unfold classOf kActualOf
  rcases strictify edges with _ | ⟨e, s1⟩
  · simp [assignIdx]
  · rcases s1 with _ | ⟨e2, s2⟩
    · simp [assignIdx]
    · have h := assignIdx_lt_length (v := v) (e2 :: s2) (by simp)
      simp only [List.tail_cons, List.length_cons] at h ⊢
      omega

theorem classOf_boundary {edges : List ℚ} {v : ℚ} {bidx : ℕ} (h1 : 1 ≤ bidx)
    (hv : (strictify edges).get? bidx = some v) :
    classOf edges v = bidx - 1 := by
  unfold classOf
  have hsort := strictify_sorted edges
  rcases hs : strictify edges with _ | ⟨e, s1⟩
  · rw [hs] at hv; simp at hv
  · rw [hs] at hv hsort
    rcases bidx with _ | b
    · omega
    · have hv2 : s1.get? b = some v := hv
      rcases List.get?_eq_some.1 hv2 with ⟨hb', hget⟩
      rw [List.tail_cons]
      rw [assignIdx_exact s1 hsort.of_cons b hb' hget]
      rfl

theorem classOf_of_all_le {edges : List ℚ} {v : ℚ}
    (h : ∀ e ∈ edges, e ≤ v) : classOf edges v = kActualOf edges - 1 := by
  unfold classOf kActualOf
  have hsort := strictify_sorted edges
  have hsub : ∀ e ∈ strictify edges, e ≤ v :=
    fun e he => h e (strictify_subset edges e he)
  rcases hs : strictify edges with _ | ⟨e0, s1⟩
  · simp [assignIdx]
  · rw [hs] at hsort hsub
    rcases s1 with _ | ⟨e1, s2⟩
    · simp [assignIdx]
    · rw [List.tail_cons]
      rw [assignIdx_all_le (e1 :: s2) hsort.of_cons
        (fun e he => hsub e (List.mem_cons_of_mem _ he))]
      simp only [List.length_cons]
      omega

/-! ## Theorems: rank edges and the bin entry point -/

theorem rankEdges_mem {vals : List ℚ} (hne : vals ≠ []) {k : ℕ} {x : ℚ}
    (hx : x ∈ rankEdges vals k) : x ∈ vals := by
  unfold rankEdges at hx
  rcases List.mem_map.1 hx with ⟨i, hi, rfl⟩
  have hslen : (List.insertionSort (· ≤ ·) vals).length = vals.length :=
    (List.perm_insertionSort _ _).length_eq
  have hlen : 0 < (List.insertionSort (· ≤ ·) vals).length := by
    rw [hslen]; exact List.length_pos.2 hne
  have hik : i ≤ k := Nat.lt_succ_iff.1 (List.mem_range.1 hi)
  have hidx : i * ((List.insertionSort (· ≤ ·) vals).length - 1) / k <
      (List.insertionSort (· ≤ ·) vals).length := by
    have h1 : i * ((List.insertionSort (· ≤ ·) vals).length - 1) / k ≤
        k * ((List.insertionSort (· ≤ ·) vals).length - 1) / k :=
      Nat.div_le_div_right (Nat.mul_le_mul_right _ hik)
    have h2 : k * ((List.insertionSort (· ≤ ·) vals).length - 1) / k ≤
        (List.insertionSort (· ≤ ·) vals).length - 1 := by
      rcases Nat.eq_zero_or_pos k with rfl | hk
      · simp
      · rw [Nat.mul_div_cancel_left _ hk]
    omega
  have hD : (List.insertionSort (· ≤ ·) vals).getD
      (i * ((List.insertionSort (· ≤ ·) vals).length - 1) / k) 0 =
      (List.insertionSort (· ≤ ·) vals).get ⟨_, hidx⟩ := by
    rw [List.getD_eq_getElem?_getD, List.getElem?_eq_getElem hidx]
    rfl
  rw [hD]
  exact ((List.perm_insertionSort (· ≤ ·) vals).mem_iff).1 (List.get_mem _ _ _)

theorem take_ne_nil {l : List ℚ} {n : ℕ} (hl : l ≠ []) (hn : 1 ≤ n) :
    l.take n ≠ [] := by
  rcases l with _ | ⟨x, t⟩
  · exact absurd rfl hl
  · rcases n with _ | n1
    · omega
    · simp [List.take]

theorem edgesFor_le_maxFin {g : Grid} (hne : finiteVals g ≠ []) (k : ℕ)
    (m : BinMethod) (ss : ℕ)
    (hss : m = BinMethod.naturalBreaks → 1 ≤ ss)
    {e : ℚ} (he : e ∈ edgesFor g k m ss) : e ≤ maxFin g := by
  cases m with
  | quantile => exact listMax_ge _ _ (rankEdges_mem hne he)
  | equalInterval => exact linspaceQ_le (minFin_le_maxFin hne) he
  | naturalBreaks =>
    have hmem := rankEdges_mem (take_ne_nil hne (hss rfl)) he
    exact listMax_ge _ _ (List.take_subset _ _ hmem)

theorem bin_k_lt_one {g : Grid} {k : ℕ} (m : BinMethod) (ss : ℕ) (h : k < 1) :
    bin g k m ss = Except.error (BinError.invalidArgument "k" k) := by
  unfold bin
  rw [if_pos h]

theorem bin_no_finite {g : Grid} {k : ℕ} (m : BinMethod) (ss : ℕ)
    (hk : ¬ k < 1) (h : finiteVals g = []) :
    bin g k m ss = Except.error (BinError.invalidState "finite_count" 0) := by
  unfold bin
  rw [if_neg hk, if_pos (by rw [h]; rfl)]

theorem bin_nb_small_sample {g : Grid} {k ss : ℕ} (hk : ¬ k < 1)
    (h : ¬ (finiteVals g).length = 0) (hss : ss < k) :
    bin g k BinMethod.naturalBreaks ss =
      Except.error (BinError.invalidArgument "sample_size" ss) := by
  unfold bin
  rw [if_neg hk, if_neg h]
  simp only [if_pos hss]

theorem bin_nb_few_distinct {g : Grid} {k ss : ℕ} (hk : ¬ k < 1)
    (h : ¬ (finiteVals g).length = 0) (hss : ¬ ss < k)
    (hd : distinctCount g < k) :
    bin g k BinMethod.naturalBreaks ss =
      Except.error (BinError.invalidArgument "k" k) := by
  unfold bin
  rw [if_neg hk, if_neg h]
  simp only [if_neg hss, if_pos hd]

theorem bin_ok {g : Grid} {k : ℕ} {m : BinMethod} {ss : ℕ} {out : Grid}
    {edges : List ℚ} (h : bin g k m ss = Except.ok (out, edges)) :
    1 ≤ k ∧ finiteVals g ≠ [] ∧ edges = edgesFor g k m ss ∧
      out = classGrid g edges ∧
      (m = BinMethod.naturalBreaks → k ≤ ss ∧ k ≤ distinctCount g) := by
  unfold bin at h
  by_cases h1 : k < 1
  · rw [if_pos h1] at h; cases h
  · rw [if_neg h1] at h
    by_cases h2 : (finiteVals g).length = 0
    · rw [if_pos h2] at h; cases h
    · rw [if_neg h2] at h
      have hne : finiteVals g ≠ [] := by
        intro hnil; rw [hnil] at h2; exact h2 rfl
      cases m with
      | naturalBreaks =>
        by_cases h3 : ss < k
        · rw [if_pos h3] at h; cases h
        · rw [if_neg h3] at h
          by_cases h4 : distinctCount g < k
          · rw [if_pos h4] at h; cases h
          · rw [if_neg h4] at h
            simp only [Except.ok.injEq, Prod.mk.injEq] at h
            obtain ⟨hout, hedges⟩ := h
            subst hedges
            subst hout
            exact ⟨by omega, hne, rfl, rfl, fun _ => ⟨by omega, by omega⟩⟩
      | quantile =>
        simp only [Except.ok.injEq, Prod.mk.injEq] at h
        obtain ⟨hout, hedges⟩ := h
        subst hedges
        subst hout
        exact ⟨by omega, hne, rfl, rfl, fun hq => by cases hq⟩
      | equalInterval =>
        simp only [Except.ok.injEq, Prod.mk.injEq] at h
        obtain ⟨hout, hedges⟩ := h
        subst hedges
        subst hout
        exact ⟨by omega, hne, rfl, rfl, fun hq => by cases hq⟩

theorem cellAt_classGrid {g : Grid} {edges : List ℚ} {i : ℕ} (hi : i < g.size) :
    cellAt (classGrid g edges) i =
      (cellAt g i).map (fun v => ((classOf edges v : ℕ) : ℚ)) := by
  have hsize : (classGrid g edges).size = g.size := rfl
  have h1 : (classGrid g edges).data.get? i =
      (g.data.get? i).map (fun o => o.map (fun v => ((classOf edges v : ℕ) : ℚ))) := by
    show (g.data.map _).get? i = _
    rw [List.get?_map]
  unfold cellAt
  rw [hsize, if_pos hi, if_pos hi, h1]
  rcases g.data.get? i with _ | o
  · rfl
  · rcases o with _ | v <;> rfl

/-! ## Theorems: the notebook's `heights` helper -/

theorem heightsStep_length (locations : List (ℤ × ℤ)) (src : ℤ → ℤ → ℚ)
    (srcRange : ℚ × ℚ) (height : ℕ) (acc : List ℕ) (r : ℕ) :
    (heightsStep locations src srcRange height acc r).length = acc.length := by
  unfold heightsStep
  split
  · split
    · exact List.length_set _ _ _
    · rfl
  · rfl

theorem heightsStep_none {locations : List (ℤ × ℤ)} {src : ℤ → ℤ → ℚ}
    {srcRange : ℚ × ℚ} {height : ℕ} {out : List ℕ} {r : ℕ}
    (h : locations.get? r = none) :
    heightsStep locations src srcRange height out r = out := by
  unfold heightsStep
  rw [h]

theorem heightsStep_some_in {locations : List (ℤ × ℤ)} {src : ℤ → ℤ → ℚ}
    {srcRange : ℚ × ℚ} {height : ℕ} {out : List ℕ} {r : ℕ} {loc : ℤ × ℤ}
    (h : locations.get? r = some loc)
    (hc : srcRange.1 ≤ src loc.2 loc.1 ∧ src loc.2 loc.1 < srcRange.2) :
    heightsStep locations src srcRange height out r = out.set r (height % 65536) := by
  unfold heightsStep
  rw [h]
  exact if_pos hc

theorem heightsStep_some_out {locations : List (ℤ × ℤ)} {src : ℤ → ℤ → ℚ}
    {srcRange : ℚ × ℚ} {height : ℕ} {out : List ℕ} {r : ℕ} {loc : ℤ × ℤ}
    (h : locations.get? r = some loc)
    (hc : ¬ (srcRange.1 ≤ src loc.2 loc.1 ∧ src loc.2 loc.1 < srcRange.2)) :
    heightsStep locations src srcRange height out r = out := by
  unfold heightsStep
  rw [h]
  exact if_neg hc

theorem heightsCell_some_in {locations : List (ℤ × ℤ)} {src : ℤ → ℤ → ℚ}
    {srcRange : ℚ × ℚ} {height : ℕ} {r : ℕ} {loc : ℤ × ℤ}
    (h : locations.get? r = some loc)
    (hc : srcRange.1 ≤ src loc.2 loc.1 ∧ src loc.2 loc.1 < srcRange.2) :
    heightsCell locations src srcRange height r = height % 65536 := by
  unfold heightsCell
  rw [h]
  exact if_pos hc

theorem heightsCell_some_out {locations : List (ℤ × ℤ)} {src : ℤ → ℤ → ℚ}
    {srcRange : ℚ × ℚ} {height : ℕ} {r : ℕ} {loc : ℤ × ℤ}
    (h : locations.get? r = some loc)
    (hc : ¬ (srcRange.1 ≤ src loc.2 loc.1 ∧ src loc.2 loc.1 < srcRange.2)) :
    heightsCell locations src srcRange height r = 0 := by
  unfold heightsCell
  rw [h]
  exact if_neg hc

theorem heights_foldl_length (locations : List (ℤ × ℤ)) (src : ℤ → ℤ → ℚ)
    (srcRange : ℚ × ℚ) (height : ℕ) :
    ∀ (l : List ℕ) (acc : List ℕ),
      (l.foldl (heightsStep locations src srcRange height) acc).length = acc.length := by
  intro l
  induction l with
  | nil => intro acc; rfl
  | cons r t ih =>
    intro acc
    show (t.foldl _ (heightsStep _ _ _ _ acc r)).length = acc.length
    rw [ih]
    exact heightsStep_length _ _ _ _ acc r

theorem heights_partial_get (locations : List (ℤ × ℤ)) (src : ℤ → ℤ → ℚ)
    (srcRange : ℚ × ℚ) (height : ℕ) :
    ∀ (m : ℕ) {r : ℕ}, r < locations.length →
      ((List.range m).foldl (heightsStep locations src srcRange height)
        (List.replicate locations.length 0)).get? r =
      some (if r < m then heightsCell locations src srcRange height r else 0) := by
  intro m
  induction m with
  | zero =>
    intro r hr
    show (List.replicate locations.length 0).get? r = _
    rw [List.get?_eq_getElem?, List.getElem?_replicate, if_pos hr,
      if_neg (Nat.not_lt_zero r)]
  | succ m ih =>
    intro r hr
    rw [List.range_succ, List.foldl_append]
    simp only [List.foldl_cons, List.foldl_nil]
    by_cases hm : m < locations.length
    · obtain ⟨loc, hloc⟩ : ∃ loc, locations.get? m = some loc := by
        rcases hg : locations.get? m with _ | loc
        · rw [List.get?_eq_none] at hg; omega
        · exact ⟨loc, rfl⟩
      by_cases hc : srcRange.1 ≤ src loc.2 loc.1 ∧ src loc.2 loc.1 < srcRange.2
      · rw [heightsStep_some_in hloc hc]
        by_cases hrm : r = m
        · subst hrm
          rw [List.get?_set_eq, ih hr]
          rw [if_pos (Nat.lt_succ_self r)]
          rw [heightsCell_some_in hloc hc]
          rfl
        · rw [List.get?_set_ne _ _ (fun he => hrm he.symm), ih hr]
          by_cases hlt : r < m
          · rw [if_pos hlt, if_pos (by omega)]
          · rw [if_neg hlt, if_neg (by omega)]
      · rw [heightsStep_some_out hloc hc, ih hr]
        by_cases hrm : r = m
        · subst hrm
          rw [if_neg (lt_irrefl r), if_pos (Nat.lt_succ_self r)]
          rw [heightsCell_some_out hloc hc]
        · by_cases hlt : r < m
          · rw [if_pos hlt, if_pos (by omega)]
          · rw [if_neg hlt, if_neg (by omega)]
    · have hnone : locations.get? m = none := List.get?_eq_none.2 (by omega)
      rw [heightsStep_none hnone, ih hr]
      rw [if_pos (by omega), if_pos (by omega)]

theorem heightsFun_length (locations : List (ℤ × ℤ)) (src : ℤ → ℤ → ℚ)
    (srcRange : ℚ × ℚ) (height : ℕ) :
    (heightsFun locations src srcRange height).length = locations.length := by
  unfold heightsFun
  rw [heights_foldl_length]
  exact List.length_replicate _ _

theorem heightsFun_get (locations : List (ℤ × ℤ)) (src : ℤ → ℤ → ℚ)
    (srcRange : ℚ × ℚ) (height : ℕ) {r : ℕ} {x y : ℤ}
    (h : locations.get? r = some (x, y)) :
    (heightsFun locations src srcRange height).get? r =
      some (if srcRange.1 ≤ src y x ∧ src y x < srcRange.2 then
        height % 65536 else 0) := by
  have hr : r < locations.length := by
    rw [List.get?_eq_getElem?] at h
    rcases List.getElem?_eq_some.1 h with ⟨hlen, _⟩
    exact hlen
  unfold heightsFun
  rw [heights_partial_get locations src srcRange height locations.length hr]
  rw [if_pos hr]
  by_cases hc : srcRange.1 ≤ src y x ∧ src y x < srcRange.2
  · rw [heightsCell_some_in h hc, if_pos hc]
  · rw [heightsCell_some_out h hc, if_neg hc]

/-! ## Claim theorems -/

/-- Claim C1: for every 2-D grid and connectivity mode in {4, 8},
`label_regions` assigns exactly one unique label to each maximal connected
component of equal-valued non-no-data cells (two finite cells carry the
same label exactly when they are connected, and labels are positive), with
labels assigned in row-major first-encountered order (label order agrees
with the row-major order of the components' first cells), the smaller of
two merged provisional labels surviving (every cell's label is the label
of the row-major-least cell of its component), and no-data cells emitted
as no-data and never included in any region. -/
theorem c1_label_regions_unique_labels (g : Grid) (c : Conn) :
    (∀ i, i < g.size → cellAt g i = none → cellAt (labelRegions g c) i = none) ∧
    (∀ i, i < g.size → cellAt g i ≠ none →
      cellAt (labelRegions g c) i = some ((labelOf g c i : ℚ)) ∧ 1 ≤ labelOf g c i) ∧
    (∀ i j, i < g.size → j < g.size → cellAt g i ≠ none → cellAt g j ≠ none →
      (labelOf g c i = labelOf g c j ↔ connected g c i j)) ∧
    (∀ i, i < g.size → cellAt g i ≠ none →
      connected g c i (repOf g c i) ∧ ∀ j, connected g c i j → repOf g c i ≤ j) ∧
    (∀ i j, i < g.size → j < g.size → cellAt g i ≠ none → cellAt g j ≠ none →
      (labelOf g c i < labelOf g c j ↔ repOf g c i < repOf g c j)) ∧
    (∀ i j, cellAt g j = none → connected g c i j → j = i) := by
  refine ⟨?_, ?_, ?_, ?_, ?_, ?_⟩
  · intro i hi h
    exact cellAt_labelRegions_none hi h
  · intro i hi h
    obtain ⟨v, hv⟩ := Option.ne_none_iff_exists'.1 h
    exact ⟨cellAt_labelRegions_some hi hv, labelOf_pos g c i⟩
  · intro i j hi hj hvi hvj
    exact labelOf_eq_iff hi hj hvi hvj
  · intro i hi hv
    exact ⟨connected_repOf g c i, fun j hj => repOf_le_of_connected hi hj⟩
  · intro i j hi hj hvi hvj
    exact labelOf_lt_iff hi hj hvi hvj
  · intro i j hnone hconn
    rcases connected_elim hconn with h | h
    · exact h
    · exact absurd hnone h.2

theorem c1_witness :
    cellAt (labelRegions gridDiag Conn.four) 1 = none ∧
    cellAt (labelRegions gridDiag Conn.four) 0 =
      some ((labelOf gridDiag Conn.four 0 : ℚ)) ∧
    (labelOf gridDiag Conn.four 0 = labelOf gridDiag Conn.four 5 ↔
      connected gridDiag Conn.four 0 5) ∧
    connected gridDiag Conn.four 0 (repOf gridDiag Conn.four 0) ∧
    repOf gridDiag Conn.four 0 ≤ 0 ∧
    (labelOf gridDiag Conn.four 0 < labelOf gridDiag Conn.four 5 ↔
      repOf gridDiag Conn.four 0 < repOf gridDiag Conn.four 5) ∧
    (1 : ℕ) = 1 :=
  ⟨(c1_label_regions_unique_labels gridDiag Conn.four).1 1 (by decide) (by decide),
    ((c1_label_regions_unique_labels gridDiag Conn.four).2.1 0 (by decide) (by decide)).1,
    (c1_label_regions_unique_labels gridDiag Conn.four).2.2.1 0 5
      (by decide) (by decide) (by decide) (by decide),
    ((c1_label_regions_unique_labels gridDiag Conn.four).2.2.2.1 0
      (by decide) (by decide)).1,
    ((c1_label_regions_unique_labels gridDiag Conn.four).2.2.2.1 0
      (by decide) (by decide)).2 0 Relation.ReflTransGen.refl,
    (c1_label_regions_unique_labels gridDiag Conn.four).2.2.2.2.1 0 5
      (by decide) (by decide) (by decide) (by decide),
    (c1_label_regions_unique_labels gridDiag Conn.four).2.2.2.2.2 1 1
      (by decide) Relation.ReflTransGen.refl⟩

theorem minFin_gridTen : minFin gridTen = 0 := by
  norm_num [minFin, finiteVals, gridTen, Grid.size, listMin, min_def]

theorem maxFin_gridTen : maxFin gridTen = 9 := by
  norm_num [maxFin, finiteVals, gridTen, Grid.size, listMax, max_def]

theorem edgesTen_eval : edgesTen = [0, 9/5, 18/5, 27/5, 36/5, 9] := by
  unfold edgesTen linspaceQ
  have hr : List.range 6 = [0, 1, 2, 3, 4, 5] := rfl
  rw [hr]
  simp only [List.map_cons, List.map_nil]
  norm_num

theorem bin_gridTen_five :
    bin gridTen 5 BinMethod.equalInterval 0 = Except.ok (outTen, edgesTen) := by
  unfold bin
  rw [if_neg (by decide), if_neg (by decide)]
  have he : edgesFor gridTen 5 BinMethod.equalInterval 0 = edgesTen := by
    unfold edgesFor edgesTen
    rw [minFin_gridTen, maxFin_gridTen]
  show Except.ok (classGrid gridTen (edgesFor gridTen 5 BinMethod.equalInterval 0),
    edgesFor gridTen 5 BinMethod.equalInterval 0) = _
  rw [he]
  rfl

theorem strictify_edgesTen : strictify edgesTen = [0, 9/5, 18/5, 27/5, 36/5, 9] := by
  rw [edgesTen_eval]
  norm_num [strictify]

theorem finiteVals_outTen : finiteVals outTen = [0, 0, 1, 1, 2, 2, 3, 3, 4, 4] := by
  have hc : ∀ v : ℚ, classOf edgesTen v = assignIdx v [9/5, 18/5, 27/5, 36/5, 9] := by
    intro v
    unfold classOf
    rw [strictify_edgesTen]
    rfl
  norm_num [finiteVals, outTen, classGrid, gridTen, Grid.size, hc, assignIdx]
  decide

theorem populated_outTen : populatedClasses outTen = 5 := by
  unfold populatedClasses
  rw [finiteVals_outTen]
  decide

/-- Claim C2 (counterexample): equal-interval binning of the values
0,1,...,9 with k = 5 does not yield the edges [0,2,4,6,8,10] the claim's
scenario states: `linspace(min, max, 6)` over these values runs from the
minimum 0 to the maximum 9, giving [0, 1.8, 3.6, 5.4, 7.2, 9]. -/
theorem c2_counterexample :
    binEdgesOf (bin gridTen 5 BinMethod.equalInterval 0) =
      some [0, 9/5, 18/5, 27/5, 36/5, 9] ∧
    binEdgesOf (bin gridTen 5 BinMethod.equalInterval 0) ≠
      some [0, 2, 4, 6, 8, 10] := by
  have h1 : binEdgesOf (bin gridTen 5 BinMethod.equalInterval 0) =
      some [0, 9/5, 18/5, 27/5, 36/5, 9] := by
    rw [bin_gridTen_five]
    show some edgesTen = _
    rw [edgesTen_eval]
  refine ⟨h1, ?_⟩
  rw [h1]
  intro h
  have h2 : (9/5 : ℚ) = 2 := by
    have h3 := congrArg (fun o => o.map (fun l => l.get? 1)) h
    simpa using h3
  norm_num at h2

/-- Claim C2 (amended): for every grid with at least one finite value and
every k ≥ 1, `bin(G, k, "equal-interval")` produces the edge sequence
`linspace(min, max, k+1)` over the finite values: a non-decreasing (and,
whenever min < max, strictly increasing) sequence of length k + 1 whose
first element is min(G) and last element is max(G); in particular,
binning the values 0,1,...,9 with k = 5 yields the edges
[0, 1.8, 3.6, 5.4, 7.2, 9] and 5 populated classes. -/
theorem c2_equal_interval_edges :
    (∀ g k ss out edges,
      bin g k BinMethod.equalInterval ss = Except.ok (out, edges) →
      edges = linspaceQ (minFin g) (maxFin g) k ∧
      edges.length = k + 1 ∧
      List.Sorted (· ≤ ·) edges ∧
      edges.head? = some (minFin g) ∧
      edges.getLast? = some (maxFin g) ∧
      (minFin g < maxFin g → List.Sorted (· < ·) edges)) ∧
    (binEdgesOf (bin gridTen 5 BinMethod.equalInterval 0) =
      some [0, 9/5, 18/5, 27/5, 36/5, 9] ∧
      (binGridOf (bin gridTen 5 BinMethod.equalInterval 0)).map populatedClasses =
        some 5) := by
  constructor
  · intro g k ss out edges h
    obtain ⟨hk, hne, hedges, _, _⟩ := bin_ok h
    subst hedges
    exact ⟨rfl, linspaceQ_length _ _ _,
      linspaceQ_sorted (minFin_le_maxFin hne) k,
      linspaceQ_head _ _ _, linspaceQ_getLast hk,
      fun hlt => linspaceQ_sorted_lt hlt hk⟩
  · constructor
    · rw [bin_gridTen_five]
      show some edgesTen = _
      rw [edgesTen_eval]
    · rw [bin_gridTen_five]
      show some (populatedClasses outTen) = _
      rw [populated_outTen]

theorem c2_witness :
    bin gridTen 5 BinMethod.equalInterval 0 = Except.ok (outTen, edgesTen) ∧
    edgesTen = linspaceQ (minFin gridTen) (maxFin gridTen) 5 ∧
    edgesTen.length = 5 + 1 ∧
    edgesTen.head? = some (minFin gridTen) ∧
    edgesTen.getLast? = some (maxFin gridTen) := by
  have h2 := c2_equal_interval_edges.1 gridTen 5 0 outTen edgesTen bin_gridTen_five
  exact ⟨bin_gridTen_five, h2.1, h2.2.1, h2.2.2.2.1, h2.2.2.2.2.1⟩

/-- Claim C3: for every grid and every binning method, each finite cell of
the class-index grid returned by `bin` holds an integer in
[0, k_actual - 1], and every no-data cell of the output equals the no-data
value of the corresponding input cell. -/
theorem c3_class_range_nodata :
    ∀ g k m ss out edges, bin g k m ss = Except.ok (out, edges) →
      1 ≤ kActualOf edges ∧
      ∀ i, i < g.size →
        (cellAt g i = none → cellAt out i = none) ∧
        (∀ v, cellAt g i = some v →
          cellAt out i = some ((classOf edges v : ℚ)) ∧
          classOf edges v < kActualOf edges) := by
  intro g k m ss out edges h
  obtain ⟨hk, hne, hedges, hout, _⟩ := bin_ok h
  subst hout
  refine ⟨one_le_kActual edges, ?_⟩
  intro i hi
  constructor
  · intro h0
    rw [cellAt_classGrid hi, h0]
    rfl
  · intro v hv
    rw [cellAt_classGrid hi, hv]
    exact ⟨rfl, classOf_lt_kActual edges v⟩

theorem c3_witness :
    cellAt outTen 3 = some ((classOf edgesTen 3 : ℚ)) ∧
    classOf edgesTen 3 < kActualOf edgesTen :=
  ((c3_class_range_nodata gridTen 5 BinMethod.equalInterval 0 outTen edgesTen
    bin_gridTen_five).2 3 (by decide)).2 3 (by decide)

/-- Claim C4: for every grid, the number of distinct regions produced by
`label_regions` under 8-connectivity is at most the number produced under
4-connectivity (diagonal adjacency can only merge regions). -/
theorem c4_eight_coarsens_four (g : Grid) :
    distinctLabelCount g Conn.eight ≤ distinctLabelCount g Conn.four := by
  rw [distinctLabelCount_eq_card_reps, distinctLabelCount_eq_card_reps]
  exact Finset.card_le_card (repsFinset_eight_subset_four g)

/-- Claim C5: `bin` and `label_regions` are deterministic pure functions:
identical inputs and parameters give identical (bit-identical) outputs.
In this embedding both operations are total functions of their arguments,
so freedom from side effects holds by construction. -/
theorem c5_deterministic_pure (g1 g2 : Grid) (k : ℕ) (m : BinMethod)
    (ss : ℕ) (c : Conn) (h : g1 = g2) :
    bin g1 k m ss = bin g2 k m ss ∧ labelRegions g1 c = labelRegions g2 c := by
  subst h
  exact ⟨rfl, rfl⟩

theorem c5_witness :
    gridTen = gridTen ∧
    bin gridTen 5 BinMethod.equalInterval 0 = bin gridTen 5 BinMethod.equalInterval 0 ∧
    labelRegions gridTen Conn.four = labelRegions gridTen Conn.four :=
  ⟨rfl, c5_deterministic_pure gridTen gridTen 5 BinMethod.equalInterval 0 Conn.four rfl⟩

/-- Claim C6: for every grid and every binning method, a cell whose value
lies exactly on an interior bin boundary (the effective boundary of index
`bidx`, adjacent to bins `bidx - 1` and `bidx`) is assigned to the
lower-indexed of the two adjacent bins, and a cell holding the global
maximum value is assigned to the last bin (the last interval is closed at
the maximum). -/
theorem c6_boundary_ties :
    ∀ g k m ss out edges, bin g k m ss = Except.ok (out, edges) →
      ∀ i, i < g.size → ∀ v, cellAt g i = some v →
        (∀ bidx, 1 ≤ bidx → bidx + 1 < (strictify edges).length →
          (strictify edges).get? bidx = some v →
          cellAt out i = some (((bidx - 1 : ℕ) : ℚ))) ∧
        (v = maxFin g → cellAt out i = some (((kActualOf edges - 1 : ℕ) : ℚ))) := by
  intro g k m ss out edges h i hi v hv
  obtain ⟨hk, hne, hedges, hout, hnb⟩ := bin_ok h
  subst hout
  constructor
  · intro bidx hb1 hb2 hbv
    rw [cellAt_classGrid hi, hv]
    show some ((classOf edges v : ℚ)) = _
    rw [classOf_boundary hb1 hbv]
  · intro hvmax
    rw [cellAt_classGrid hi, hv]
    show some ((classOf edges v : ℚ)) = _
    have hle : ∀ e ∈ edges, e ≤ v := by
      intro e he
      rw [hvmax]
      refine edgesFor_le_maxFin hne k m ss
        (fun hm => le_trans hk (hnb hm).1) ?_
      rw [hedges] at he
      exact he
    rw [classOf_of_all_le hle]

theorem edgesTen3_eval : edgesTen3 = [0, 3, 6, 9] := by
  unfold edgesTen3 linspaceQ
  have hr : List.range 4 = [0, 1, 2, 3] := rfl
  rw [hr]
  simp only [List.map_cons, List.map_nil]
  norm_num

theorem bin_gridTen_three :
    bin gridTen 3 BinMethod.equalInterval 0 = Except.ok (outTen3, edgesTen3) := by
  unfold bin
  rw [if_neg (by decide), if_neg (by decide)]
  have he : edgesFor gridTen 3 BinMethod.equalInterval 0 = edgesTen3 := by
    unfold edgesFor edgesTen3
    rw [minFin_gridTen, maxFin_gridTen]
  show Except.ok (classGrid gridTen (edgesFor gridTen 3 BinMethod.equalInterval 0),
    edgesFor gridTen 3 BinMethod.equalInterval 0) = _
  rw [he]
  rfl

theorem strictify_edgesTen3 : strictify edgesTen3 = [0, 3, 6, 9] := by
  rw [edgesTen3_eval]
  norm_num [strictify]

theorem c6_witness :
    cellAt outTen3 3 = some (((1 - 1 : ℕ) : ℚ)) ∧
    cellAt outTen3 9 = some (((kActualOf edgesTen3 - 1 : ℕ) : ℚ)) := by
  have h2 := c6_boundary_ties gridTen 3 BinMethod.equalInterval 0 outTen3 edgesTen3
    bin_gridTen_three
  refine ⟨(h2 3 (by decide) 3 (by decide)).1 1 (by decide) ?_ ?_,
    (h2 9 (by decide) 9 (by decide)).2 maxFin_gridTen.symm⟩
  · rw [strictify_edgesTen3]
    decide
  · rw [strictify_edgesTen3]
    decide

set_option maxRecDepth 40000 in
/-- Claim C7: on a 4×4 grid in which exactly two equal-valued cells touch
only diagonally, `label_regions` with 4-connectivity produces 2 regions
for that value, and with 8-connectivity 1 region. -/
theorem c7_diagonal_scenario :
    regionCountOfValue gridDiag Conn.four 1 = 2 ∧
    regionCountOfValue gridDiag Conn.eight 1 = 1 := by
  constructor
  · decide
  · decide

/-- Claim C8: `bin` raises invalid-argument (with the offending parameter
and value) whenever k < 1, invalid-state whenever the grid has no finite
values, and, for natural breaks, invalid-argument when sample_size < k or
k exceeds the number of distinct values; the errors are returned
synchronously as values, never retried. -/
theorem c8_error_conditions :
    ∀ (g : Grid) (k : ℕ) (m : BinMethod) (ss : ℕ),
      (k < 1 → bin g k m ss = Except.error (BinError.invalidArgument "k" k)) ∧
      (¬ k < 1 → finiteVals g = [] →
        bin g k m ss = Except.error (BinError.invalidState "finite_count" 0)) ∧
      (¬ k < 1 → finiteVals g ≠ [] → ss < k →
        bin g k BinMethod.naturalBreaks ss =
          Except.error (BinError.invalidArgument "sample_size" ss)) ∧
      (¬ k < 1 → finiteVals g ≠ [] → ¬ ss < k → distinctCount g < k →
        bin g k BinMethod.naturalBreaks ss =
          Except.error (BinError.invalidArgument "k" k)) := by
  intro g k m ss
  refine ⟨fun h => bin_k_lt_one m ss h,
    fun hk h => bin_no_finite m ss hk h,
    fun hk hne hss =>
      bin_nb_small_sample hk (fun h0 => hne (List.length_eq_zero.1 h0)) hss,
    fun hk hne hss hd =>
      bin_nb_few_distinct hk (fun h0 => hne (List.length_eq_zero.1 h0)) hss hd⟩

theorem c8_witness :
    bin gridTen 0 BinMethod.quantile 0 =
      Except.error (BinError.invalidArgument "k" 0) ∧
    bin gridNoFinite 2 BinMethod.quantile 0 =
      Except.error (BinError.invalidState "finite_count" 0) ∧
    bin gridTen 2 BinMethod.naturalBreaks 1 =
      Except.error (BinError.invalidArgument "sample_size" 1) ∧
    bin gridTen 11 BinMethod.naturalBreaks 11 =
      Except.error (BinError.invalidArgument "k" 11) :=
  ⟨(c8_error_conditions gridTen 0 BinMethod.quantile 0).1 (by decide),
    (c8_error_conditions gridNoFinite 2 BinMethod.quantile 0).2.1
      (by decide) (by decide),
    (c8_error_conditions gridTen 2 BinMethod.naturalBreaks 1).2.2.1
      (by decide) (by decide) (by decide),
    (c8_error_conditions gridTen 11 BinMethod.naturalBreaks 11).2.2.2
      (by decide) (by decide) (by decide) (by decide)⟩

/-- Claim C9: every transform (`bin` and `label_regions`) returns a new
grid with the same shape (rows, cols, and data extent) and the same
coordinate metadata as its input; in this functional embedding the input
grid is immutable, so no transform mutates it in place. -/
theorem c9_shape_metadata_preserved :
    (∀ g k m ss out edges, bin g k m ss = Except.ok (out, edges) →
      out.rows = g.rows ∧ out.cols = g.cols ∧ out.xcoords = g.xcoords ∧
      out.ycoords = g.ycoords ∧ out.data.length = g.data.length) ∧
    (∀ g c, (labelRegions g c).rows = g.rows ∧
      (labelRegions g c).cols = g.cols ∧
      (labelRegions g c).xcoords = g.xcoords ∧
      (labelRegions g c).ycoords = g.ycoords ∧
      (g.data.length = g.size →
        (labelRegions g c).data.length = g.data.length)) := by
  constructor
  · intro g k m ss out edges h
    obtain ⟨_, _, _, hout, _⟩ := bin_ok h
    subst hout
    refine ⟨rfl, rfl, rfl, rfl, ?_⟩
    show (g.data.map _).length = _
    rw [List.length_map]
  · intro g c
    refine ⟨rfl, rfl, rfl, rfl, ?_⟩
    intro hwf
    show ((List.range g.size).map _).length = _
    rw [List.length_map, List.length_range, hwf]

theorem c9_witness :
    bin gridTen 5 BinMethod.equalInterval 0 = Except.ok (outTen, edgesTen) ∧
    outTen.rows = gridTen.rows ∧ outTen.cols = gridTen.cols ∧
    outTen.data.length = gridTen.data.length ∧
    gridDiag.data.length = gridDiag.size ∧
    (labelRegions gridDiag Conn.four).data.length = gridDiag.data.length := by
  have h1 := c9_shape_metadata_preserved.1 gridTen 5 BinMethod.equalInterval 0
    outTen edgesTen bin_gridTen_five
  have h2 := (c9_shape_metadata_preserved.2 gridDiag Conn.four).2.2.2.2 (by decide)
  exact ⟨bin_gridTen_five, h1.1, h1.2.1, h1.2.2.2.2, by decide, h2⟩

/-- Claim C10 (counterexample): the notebook's `heights` function stores
its `height` argument into a `uint16` array, so the stored entry is
`height` reduced modulo 2^16, not `height` itself: with a location whose
source value 50 lies in [0, 100) and `height = 65536`, the produced entry
is 0, not 65536. -/
theorem c10_counterexample :
    (heightsFun locsOne srcFifty (0, 100) 65536).get? 0 = some 0 ∧
    (0 : ℚ) ≤ srcFifty 0 0 ∧ srcFifty 0 0 < 100 ∧ (0 : ℕ) ≠ 65536 := by
  refine ⟨by decide, by decide, by decide, by decide⟩

/-- Claim C10 (amended): for every locations array, source `src`, range
pair and height value, the notebook's `heights` function returns a fresh
array of length n whose entry `r` equals `height` stored as `uint16`
(that is, `height % 2^16`) when `src[locations[r][1], locations[r][0]]`
lies in the half-open interval `[src_range[0], src_range[1])` and equals
0 otherwise; being a pure function of its arguments, it modifies neither
`locations` nor `src`. -/
theorem c10_heights_spec :
    ∀ (locations : List (ℤ × ℤ)) (src : ℤ → ℤ → ℚ) (srcRange : ℚ × ℚ)
      (height : ℕ),
      (heightsFun locations src srcRange height).length = locations.length ∧
      ∀ r x y, locations.get? r = some (x, y) →
        (heightsFun locations src srcRange height).get? r =
          some (if srcRange.1 ≤ src y x ∧ src y x < srcRange.2 then
            height % 65536 else 0) := by
  intro locations src srcRange height
  exact ⟨heightsFun_length _ _ _ _, fun r x y h => heightsFun_get _ _ _ _ h⟩

theorem c10_witness :
    locsOne.get? 0 = some (0, 0) ∧
    (heightsFun locsOne srcFifty (0, 100) 5).get? 0 =
      some (if (0 : ℚ) ≤ srcFifty 0 0 ∧ srcFifty 0 0 < 100 then
        5 % 65536 else 0) :=
  ⟨rfl, (c10_heights_spec locsOne srcFifty (0, 100) 5).2 0 0 0 rfl⟩

end RasterCore
